import Mathlib

/-!
Verification of the training-loop orchestration and training-dynamics
bookkeeping engine of `run_glue.py` (repository TrainingDynamics).

The development shallowly embeds the control logic of `main`:
  * the gradient-accumulated, checkpoint-resumable epoch/batch loop
    (lines 660-751 of `run_glue.py`),
  * the resume-tag parsing (lines 664-683),
  * the per-sample weighted loss (lines 690-699, 718-725),
  * the training-dynamics gather/dedup pass (lines 752-797),
  * the distillation-augmented continuation loss (lines 975-1012).
Machine floats are modelled as real numbers; Python `dict`/name errors are
modelled with an explicit error type.
-/

/-- Python-style error classes raised by the embedded code. -/
inductive PyError
  | keyError
  | nameError
deriving DecidableEq

/-! ## The epoch/batch training loop (run_glue.py lines 660-751)

The loop is embedded at the control level: a batch is identified by its
0-based `step` index inside its epoch, and the state records
`completed_steps` together with the lists of (epoch, step) pairs at which
an optimizer step was executed, at which a batch was skipped by the
resume fast-forward, and which batches were actually processed.
`stopped` models the Python `break` out of the inner batch loop triggered
by `completed_steps >= args.max_train_steps`. -/

/-- Configuration of one training run, as it reaches the training loop:
`numBatches` is `len(train_dataloader)`, `accumSteps` is
`args.gradient_accumulation_steps`, `numEpochs` is
`args.num_train_epochs`, `maxTrainSteps` is `args.max_train_steps`, and
`resume` is `none` when `args.resume_from_checkpoint` is falsy, otherwise
`some (starting_epoch, resume_step)` as computed at lines 677-683. -/
structure TrainConfig where
  numBatches : Nat
  accumSteps : Nat
  numEpochs : Nat
  maxTrainSteps : Nat
  resume : Option (Nat × Option Nat)
deriving DecidableEq

/-- Mutable state of the training loop. -/
structure TrainState where
  completedSteps : Nat
  optSteps : List (Nat × Nat)
  skipped : List (Nat × Nat)
  processed : List (Nat × Nat)
  stopped : Bool
deriving DecidableEq

/-- Line 736: `step % args.gradient_accumulation_steps == 0 or step == len(train_dataloader) - 1`. -/
def isBoundary (cfg : TrainConfig) (step : Nat) : Bool :=
  step % cfg.accumSteps == 0 || step == cfg.numBatches - 1

/-- Lines 713-714: the resume fast-forward condition
`args.resume_from_checkpoint and epoch == starting_epoch and resume_step is not None and step < resume_step`. -/
def skipCond (cfg : TrainConfig) (epoch step : Nat) : Bool :=
  match cfg.resume with
  | some (se, some rs) => epoch == se && step < rs
  | _ => false

/-- One iteration of the inner batch loop (lines 711-751).  A skipped
batch increments `completed_steps` and `continue`s, bypassing the
max-step check; otherwise the batch is processed, an optimizer step runs
iff the accumulation-boundary condition of line 736 holds, and the check
`completed_steps >= args.max_train_steps` of line 750 sets the break
flag. -/
def trainBatch (cfg : TrainConfig) (epoch : Nat) (st : TrainState) (step : Nat) : TrainState :=
  if st.stopped then st
  else if skipCond cfg epoch step then
    { st with completedSteps := st.completedSteps + 1,
              skipped := st.skipped ++ [(epoch, step)] }
  else
    let st1 := { st with processed := st.processed ++ [(epoch, step)] }
    let st2 :=
      if isBoundary cfg step then
        { st1 with completedSteps := st1.completedSteps + 1,
                   optSteps := st1.optSteps ++ [(epoch, step)] }
      else st1
    if cfg.maxTrainSteps ≤ st2.completedSteps then { st2 with stopped := true } else st2

/-- One epoch of the training loop: the batch loop restarts fresh (the
Python `break` only leaves the inner loop). -/
def trainEpoch (cfg : TrainConfig) (st : TrainState) (epoch : Nat) : TrainState :=
  (List.range cfg.numBatches).foldl (trainBatch cfg epoch) { st with stopped := false }

/-- Line 662/678/682: the epoch index at which the loop starts. -/
def startingEpoch (cfg : TrainConfig) : Nat :=
  match cfg.resume with
  | some (se, _) => se
  | none => 0

/-- The whole training loop, lines 706-751:
`for epoch in range(starting_epoch, args.num_train_epochs)`. -/
def runTraining (cfg : TrainConfig) : TrainState :=
  (List.range' (startingEpoch cfg) (cfg.numEpochs - startingEpoch cfg)).foldl
    (trainEpoch cfg) ⟨0, [], [], [], false⟩

/-- Number of accumulation boundaries inside one full (uninterrupted)
epoch of `cfg.numBatches` batches. -/
def boundaryCount (cfg : TrainConfig) : Nat :=
  (List.range cfg.numBatches).countP (fun s => isBoundary cfg s)

example : (runTraining ⟨4, 2, 3, 6, none⟩).completedSteps = 7 := by decide
example : (runTraining ⟨3, 2, 1, 2, none⟩).completedSteps = 2 := by decide
example : (runTraining ⟨4, 2, 3, 6, none⟩).processed.filter (fun p => p.1 == 2) = [(2, 0)] := by decide
example : (2, 0) ∈ (runTraining ⟨4, 2, 3, 6, none⟩).optSteps := by decide

/-! ### Structural lemmas about the loop -/

theorem trainBatch_of_stopped (cfg : TrainConfig) (e s : Nat) (st : TrainState)
    (h : st.stopped = true) : trainBatch cfg e st s = st := by
  simp [trainBatch, h]

theorem foldl_trainBatch_of_stopped (cfg : TrainConfig) (e : Nat) (l : List Nat)
    (st : TrainState) (h : st.stopped = true) :
    l.foldl (trainBatch cfg e) st = st := by
  induction l with
  | nil => rfl
  | cons s t ih => rw [List.foldl_cons, trainBatch_of_stopped cfg e s st h, ih]

/-- An uninterrupted run of the batch loop over step indices `l` during
which the resume skip never fires and the maximum-step check never
triggers: every batch is processed, the optimizer steps exactly at the
accumulation boundaries, and `completed_steps` grows by the number of
boundaries. -/
theorem foldl_trainBatch_clean (cfg : TrainConfig) (e : Nat) (l : List Nat) (st : TrainState)
    (hstop : st.stopped = false)
    (hskip : ∀ s ∈ l, skipCond cfg e s = false)
    (hcap : st.completedSteps + l.countP (fun s => isBoundary cfg s) < cfg.maxTrainSteps) :
    l.foldl (trainBatch cfg e) st =
      ⟨st.completedSteps + l.countP (fun s => isBoundary cfg s),
       st.optSteps ++ (l.filter (fun s => isBoundary cfg s)).map (fun s => (e, s)),
       st.skipped,
       st.processed ++ l.map (fun s => (e, s)),
       false⟩ := by
  induction l generalizing st with
  | nil =>
      cases st
      simp_all
  | cons s t ih =>
      have hsk : skipCond cfg e s = false := hskip s (by simp)
      by_cases hb : isBoundary cfg s
      · have hcnt1 : (s :: t).countP (fun x => isBoundary cfg x) =
            t.countP (fun x => isBoundary cfg x) + 1 := by
          simp [List.countP_cons, hb]
        rw [hcnt1] at hcap ⊢
        have hcheck : ¬ (cfg.maxTrainSteps ≤ st.completedSteps + 1) := by omega
        have hstep : trainBatch cfg e st s =
            ⟨st.completedSteps + 1, st.optSteps ++ [(e, s)], st.skipped,
             st.processed ++ [(e, s)], false⟩ := by
          simp [trainBatch, hstop, hsk, hb, hcheck]
        have hcap2 : (⟨st.completedSteps + 1, st.optSteps ++ [(e, s)], st.skipped,
            st.processed ++ [(e, s)], false⟩ : TrainState).completedSteps +
            t.countP (fun x => isBoundary cfg x) < cfg.maxTrainSteps := by
          show st.completedSteps + 1 + t.countP (fun x => isBoundary cfg x) < cfg.maxTrainSteps
          omega
        rw [List.foldl_cons, hstep,
          ih _ rfl (fun x hx => hskip x (List.mem_cons_of_mem s hx)) hcap2]
        simp [List.filter_cons_of_pos hb, List.append_assoc]
        all_goals omega
      · have hcnt0 : (s :: t).countP (fun x => isBoundary cfg x) =
            t.countP (fun x => isBoundary cfg x) := by
          simp [List.countP_cons, hb]
        rw [hcnt0] at hcap ⊢
        have hcheck : ¬ (cfg.maxTrainSteps ≤ st.completedSteps) := by omega
        have hstep : trainBatch cfg e st s =
            ⟨st.completedSteps, st.optSteps, st.skipped,
             st.processed ++ [(e, s)], false⟩ := by
          simp [trainBatch, hstop, hsk, hb, hcheck]
        have hcap2 : (⟨st.completedSteps, st.optSteps, st.skipped,
            st.processed ++ [(e, s)], false⟩ : TrainState).completedSteps +
            t.countP (fun x => isBoundary cfg x) < cfg.maxTrainSteps := by
          show st.completedSteps + t.countP (fun x => isBoundary cfg x) < cfg.maxTrainSteps
          omega
        rw [List.foldl_cons, hstep,
          ih _ rfl (fun x hx => hskip x (List.mem_cons_of_mem s hx)) hcap2]
        simp [List.filter_cons_of_neg hb, List.append_assoc]

/-- A run of the batch loop over step indices `l` that are all below the
resume residual: each batch is skipped, incrementing `completed_steps`
without any optimizer step and without consulting the maximum-step
check. -/
theorem foldl_trainBatch_skip (cfg : TrainConfig) (e : Nat) (l : List Nat) (st : TrainState)
    (hstop : st.stopped = false)
    (hskip : ∀ s ∈ l, skipCond cfg e s = true) :
    l.foldl (trainBatch cfg e) st =
      ⟨st.completedSteps + l.length, st.optSteps,
       st.skipped ++ l.map (fun s => (e, s)), st.processed, false⟩ := by
  induction l generalizing st with
  | nil =>
      cases st
      simp_all
  | cons s t ih =>
      have hsk : skipCond cfg e s = true := hskip s (by simp)
      have hstep : trainBatch cfg e st s =
          ⟨st.completedSteps + 1, st.optSteps, st.skipped ++ [(e, s)], st.processed, false⟩ := by
        simp [trainBatch, hstop, hsk]
      rw [List.foldl_cons, hstep,
        ih _ rfl (fun x hx => hskip x (List.mem_cons_of_mem s hx))]
      simp [List.append_assoc]
      all_goals omega

/-- One clean epoch: no resume skipping applies and the maximum-step
check never triggers. -/
theorem trainEpoch_clean (cfg : TrainConfig) (st : TrainState) (e : Nat)
    (hskip : ∀ s, skipCond cfg e s = false)
    (hcap : st.completedSteps + boundaryCount cfg < cfg.maxTrainSteps) :
    trainEpoch cfg st e =
      ⟨st.completedSteps + boundaryCount cfg,
       st.optSteps ++ ((List.range cfg.numBatches).filter (fun s => isBoundary cfg s)).map
         (fun s => (e, s)),
       st.skipped,
       st.processed ++ (List.range cfg.numBatches).map (fun s => (e, s)),
       false⟩ :=
  foldl_trainBatch_clean cfg e (List.range cfg.numBatches)
    { st with stopped := false } rfl (fun s _ => hskip s) hcap

/-- A sequence of clean epochs `es`: `completed_steps` grows by the
per-epoch boundary count for each epoch, and the optimizer steps are
exactly the boundary batches of each epoch, in order. -/
theorem foldl_trainEpoch_clean (cfg : TrainConfig) (es : List Nat) (st : TrainState)
    (hstop : st.stopped = false)
    (hskip : ∀ e ∈ es, ∀ s, skipCond cfg e s = false)
    (hcap : st.completedSteps + es.length * boundaryCount cfg < cfg.maxTrainSteps) :
    es.foldl (trainEpoch cfg) st =
      ⟨st.completedSteps + es.length * boundaryCount cfg,
       st.optSteps ++ es.flatMap (fun e =>
         ((List.range cfg.numBatches).filter (fun s => isBoundary cfg s)).map (fun s => (e, s))),
       st.skipped,
       st.processed ++ es.flatMap (fun e => (List.range cfg.numBatches).map (fun s => (e, s))),
       false⟩ := by
  induction es generalizing st with
  | nil =>
      cases st
      simp_all
  | cons e t ih =>
      rw [List.length_cons, Nat.succ_mul] at hcap ⊢
      have hcap1 : st.completedSteps + boundaryCount cfg < cfg.maxTrainSteps := by omega
      rw [List.foldl_cons, trainEpoch_clean cfg st e (hskip e (by simp)) hcap1,
        ih _ rfl (fun x hx => hskip x (List.mem_cons_of_mem e hx))
          (by show st.completedSteps + boundaryCount cfg + _ < _; omega)]
      simp [List.append_assoc]
      all_goals omega

/-- The resumed epoch after a step-tagged checkpoint with residual `rs`:
the first `rs` batches are skipped (each bumping `completed_steps` by 1,
with no optimizer step), the remaining batches run normally. -/
theorem trainEpoch_resume (cfg : TrainConfig) (st : TrainState) (se rs : Nat)
    (hstop : st.stopped = false)
    (hres : cfg.resume = some (se, some rs))
    (hrs : rs ≤ cfg.numBatches)
    (hcap : st.completedSteps + rs +
      (List.range' rs (cfg.numBatches - rs)).countP (fun s => isBoundary cfg s) <
      cfg.maxTrainSteps) :
    trainEpoch cfg st se =
      ⟨st.completedSteps + rs +
         (List.range' rs (cfg.numBatches - rs)).countP (fun s => isBoundary cfg s),
       st.optSteps ++ ((List.range' rs (cfg.numBatches - rs)).filter
         (fun s => isBoundary cfg s)).map (fun s => (se, s)),
       st.skipped ++ (List.range rs).map (fun s => (se, s)),
       st.processed ++ (List.range' rs (cfg.numBatches - rs)).map (fun s => (se, s)),
       false⟩ := by
  have hsplit : List.range cfg.numBatches =
      List.range rs ++ List.range' rs (cfg.numBatches - rs) := by
    have h1 := List.range'_append_1 0 rs (cfg.numBatches - rs)
    rw [Nat.zero_add, Nat.sub_add_cancel hrs] at h1
    simp only [List.range_eq_range']
    exact h1.symm
  unfold trainEpoch
  rw [hsplit, List.foldl_append]
  rw [foldl_trainBatch_skip cfg se (List.range rs) _ rfl
    (fun s hs => by simp [skipCond, hres, List.mem_range.mp hs])]
  simp only [List.length_range]
  rw [foldl_trainBatch_clean cfg se (List.range' rs (cfg.numBatches - rs)) _ rfl
    (fun s hs => by
      obtain ⟨i, _, rfl⟩ := List.mem_range'.mp hs
      have hge : ¬ (rs + 1 * i < rs) := by omega
      simp [skipCond, hres, hge])
    hcap]

/-- Every unit of `completed_steps` comes from exactly one skipped batch
or one optimizer step (invariant of the batch loop). -/
theorem trainBatch_counter (cfg : TrainConfig) (e : Nat) (st : TrainState) (s : Nat) :
    (trainBatch cfg e st s).completedSteps + st.skipped.length + st.optSteps.length =
      st.completedSteps + (trainBatch cfg e st s).skipped.length +
        (trainBatch cfg e st s).optSteps.length := by
  by_cases h1 : st.stopped = true
  · simp [trainBatch, h1]
  · replace h1 : st.stopped = false := by simpa using h1
    by_cases h2 : skipCond cfg e s = true
    · simp [trainBatch, h1, h2] <;> omega
    · replace h2 : skipCond cfg e s = false := by simpa using h2
      by_cases h3 : isBoundary cfg s = true
      · by_cases h4 : cfg.maxTrainSteps ≤ st.completedSteps + 1 <;>
          simp [trainBatch, h1, h2, h3, h4] <;> omega
      · replace h3 : isBoundary cfg s = false := by simpa using h3
        by_cases h4 : cfg.maxTrainSteps ≤ st.completedSteps <;>
          simp [trainBatch, h1, h2, h3, h4] <;> omega

theorem foldl_trainBatch_counter (cfg : TrainConfig) (e : Nat) (l : List Nat)
    (st : TrainState) :
    (l.foldl (trainBatch cfg e) st).completedSteps + st.skipped.length + st.optSteps.length =
      st.completedSteps + (l.foldl (trainBatch cfg e) st).skipped.length +
        (l.foldl (trainBatch cfg e) st).optSteps.length := by
  induction l generalizing st with
  | nil => rfl
  | cons s t ih =>
      rw [List.foldl_cons]
      have h1 := trainBatch_counter cfg e st s
      have h2 := ih (trainBatch cfg e st s)
      omega

theorem trainEpoch_counter (cfg : TrainConfig) (e : Nat) (st : TrainState) :
    (trainEpoch cfg st e).completedSteps + st.skipped.length + st.optSteps.length =
      st.completedSteps + (trainEpoch cfg st e).skipped.length +
        (trainEpoch cfg st e).optSteps.length := by
  unfold trainEpoch
  have h := foldl_trainBatch_counter cfg e (List.range cfg.numBatches)
    { st with stopped := false }
  simpa using h

/-- In any run, `completed_steps` equals the number of skipped batches
plus the number of optimizer steps. -/
theorem runTraining_counter (cfg : TrainConfig) :
    (runTraining cfg).completedSteps =
      (runTraining cfg).skipped.length + (runTraining cfg).optSteps.length := by
  unfold runTraining
  generalize List.range' (startingEpoch cfg) (cfg.numEpochs - startingEpoch cfg) = es
  have key : ∀ (es : List Nat) (st : TrainState),
      (es.foldl (trainEpoch cfg) st).completedSteps + st.skipped.length +
          st.optSteps.length =
        st.completedSteps + (es.foldl (trainEpoch cfg) st).skipped.length +
          (es.foldl (trainEpoch cfg) st).optSteps.length := by
    intro es
    induction es with
    | nil => intro st; rfl
    | cons e t ih =>
        intro st
        rw [List.foldl_cons]
        have h1 := trainEpoch_counter cfg e st
        have h2 := ih (trainEpoch cfg st e)
        omega
  have := key es ⟨0, [], [], [], false⟩
  simpa using this

/-! ### Counting accumulation boundaries in closed form -/

theorem countP_mod_range (a : Nat) (ha : 0 < a) :
    ∀ n, (List.range n).countP (fun s => s % a == 0) = (n + a - 1) / a := by
  intro n
  induction n with
  | zero =>
      simp
      exact (Nat.div_eq_of_lt (by omega)).symm
  | succ n ih =>
      rw [List.range_succ, List.countP_append, ih]
      by_cases h : n % a = 0
      · obtain ⟨q, rfl⟩ := Nat.dvd_of_mod_eq_zero h
        have hmul : a * (q + 1) = a * q + a := by ring
        have e1 : a * q + 1 + a - 1 = a * (q + 1) := by omega
        have e2 : a * q + a - 1 = a * q + (a - 1) := by omega
        rw [e1, e2, Nat.mul_div_cancel_left _ ha, Nat.mul_add_div ha,
          Nat.div_eq_of_lt (by omega)]
        simp [List.countP_cons, h]
      · have hlt : n % a < a := Nat.mod_lt n ha
        have hdm := Nat.div_add_mod n a
        have hmul : a * (n / a + 1) = a * (n / a) + a := by ring
        have e1 : n + 1 + a - 1 = a * (n / a + 1) + n % a := by omega
        have e2 : n + a - 1 = a * (n / a + 1) + (n % a - 1) := by omega
        rw [e1, e2, Nat.mul_add_div ha, Nat.mul_add_div ha,
          Nat.div_eq_of_lt (by omega : n % a < a),
          Nat.div_eq_of_lt (by omega : n % a - 1 < a)]
        simp [List.countP_cons, h]

theorem div_round_up_eq (n a : Nat) (ha : 0 < a) :
    (n + a - 1) / a = n / a + (if n % a = 0 then 0 else 1) := by
  by_cases h : n % a = 0
  · obtain ⟨q, rfl⟩ := Nat.dvd_of_mod_eq_zero h
    have e1 : a * q + a - 1 = a * q + (a - 1) := by omega
    rw [e1, Nat.mul_add_div ha, Nat.mul_div_cancel_left _ ha,
      Nat.div_eq_of_lt (by omega)]
    simp [h]
  · have hlt : n % a < a := Nat.mod_lt n ha
    have hdm := Nat.div_add_mod n a
    have hmul : a * (n / a + 1) = a * (n / a) + a := by ring
    have e1 : n + a - 1 = a * (n / a + 1) + (n % a - 1) := by omega
    rw [e1, Nat.mul_add_div ha, Nat.div_eq_of_lt (by omega : n % a - 1 < a)]
    simp [h]

theorem countP_boundary_closed (a B : Nat) (ha : 0 < a) (hB : 0 < B) :
    (List.range B).countP (fun s => s % a == 0 || s == B - 1) =
      (B - 1) / a + 1 + (if (B - 1) % a = 0 then 0 else 1) := by
  obtain ⟨n, rfl⟩ : ∃ n, B = n + 1 := ⟨B - 1, by omega⟩
  rw [List.range_succ, List.countP_append]
  have h1 : (List.range n).countP (fun s => s % a == 0 || s == n + 1 - 1) =
      (List.range n).countP (fun s => s % a == 0) := by
    apply List.countP_congr
    intro x hx
    have hxn : x < n := List.mem_range.mp hx
    simp
    omega
  have h2 : ([n].countP (fun s => s % a == 0 || s == n + 1 - 1)) = 1 := by
    simp [List.countP_cons]
  rw [h1, h2, countP_mod_range a ha n, div_round_up_eq n a ha]
  simp
  omega

/-- Closed form for the number of optimizer steps in one uninterrupted
epoch: the multiples of the accumulation factor below `numBatches`
(note that batch index 0 always counts), plus one extra step for the
forced end-of-epoch flush when the last index is itself not a multiple. -/
theorem boundaryCount_closed (cfg : TrainConfig)
    (ha : 0 < cfg.accumSteps) (hB : 0 < cfg.numBatches) :
    boundaryCount cfg = (cfg.numBatches - 1) / cfg.accumSteps + 1 +
      (if (cfg.numBatches - 1) % cfg.accumSteps = 0 then 0 else 1) := by
  have h := countP_boundary_closed cfg.accumSteps cfg.numBatches ha hB
  unfold boundaryCount isBoundary
  exact h

/-! ### Behaviour of the loop once the step cap is reached -/

/-- While `completed_steps` is strictly below the cap, the batch loop of
one epoch can never push it beyond the cap: the check at line 750 breaks
the loop as soon as the cap is reached. -/
theorem foldl_trainBatch_cap (cfg : TrainConfig) (e : Nat) (l : List Nat) (st : TrainState)
    (hres : cfg.resume = none) (h : st.completedSteps < cfg.maxTrainSteps) :
    (l.foldl (trainBatch cfg e) st).completedSteps ≤ cfg.maxTrainSteps := by
  induction l generalizing st with
  | nil => simpa using Nat.le_of_lt h
  | cons s t ih =>
      rw [List.foldl_cons]
      by_cases h1 : st.stopped = true
      · rw [trainBatch_of_stopped _ _ _ _ h1]
        exact ih st h
      · replace h1 : st.stopped = false := by simpa using h1
        have hsk : skipCond cfg e s = false := by simp [skipCond, hres]
        by_cases hb : isBoundary cfg s = true
        · by_cases hm : cfg.maxTrainSteps ≤ st.completedSteps + 1
          · have hstep : trainBatch cfg e st s =
                ⟨st.completedSteps + 1, st.optSteps ++ [(e, s)], st.skipped,
                 st.processed ++ [(e, s)], true⟩ := by
              simp [trainBatch, h1, hsk, hb, hm]
            rw [hstep, foldl_trainBatch_of_stopped _ _ _ _ rfl]
            show st.completedSteps + 1 ≤ cfg.maxTrainSteps
            omega
          · have hstep : trainBatch cfg e st s =
                ⟨st.completedSteps + 1, st.optSteps ++ [(e, s)], st.skipped,
                 st.processed ++ [(e, s)], false⟩ := by
              simp [trainBatch, h1, hsk, hb, hm]
            rw [hstep]
            exact ih _ (by show st.completedSteps + 1 < cfg.maxTrainSteps; omega)
        · replace hb : isBoundary cfg s = false := by simpa using hb
          have hm : ¬ (cfg.maxTrainSteps ≤ st.completedSteps) := by omega
          have hstep : trainBatch cfg e st s =
              ⟨st.completedSteps, st.optSteps, st.skipped,
               st.processed ++ [(e, s)], false⟩ := by
            simp [trainBatch, h1, hsk, hb, hm]
          rw [hstep]
          exact ih _ (by show st.completedSteps < cfg.maxTrainSteps; omega)

/-- One epoch adds at most one step beyond whatever bound held before:
either the cap still protects the epoch, or the epoch's very first batch
(always an accumulation boundary, since `0 % a == 0`) performs one
optimizer step and then the cap check breaks the epoch. -/
theorem trainEpoch_cs_le (cfg : TrainConfig) (st : TrainState) (e : Nat)
    (hres : cfg.resume = none) :
    (trainEpoch cfg st e).completedSteps ≤
      max (st.completedSteps + 1) cfg.maxTrainSteps := by
  unfold trainEpoch
  by_cases h : st.completedSteps < cfg.maxTrainSteps
  · have hc := foldl_trainBatch_cap cfg e (List.range cfg.numBatches)
      { st with stopped := false } hres (by show st.completedSteps < _; exact h)
    omega
  · cases hR : List.range cfg.numBatches with
    | nil =>
        show st.completedSteps ≤ _
        omega
    | cons s t =>
        rw [List.foldl_cons]
        have hsk : skipCond cfg e s = false := by simp [skipCond, hres]
        by_cases hb : isBoundary cfg s = true
        · have hm : cfg.maxTrainSteps ≤ st.completedSteps + 1 := by omega
          have hstep : trainBatch cfg e { st with stopped := false } s =
              ⟨st.completedSteps + 1, st.optSteps ++ [(e, s)], st.skipped,
               st.processed ++ [(e, s)], true⟩ := by
            simp [trainBatch, hsk, hb, hm]
          rw [hstep, foldl_trainBatch_of_stopped _ _ _ _ rfl]
          show st.completedSteps + 1 ≤ _
          omega
        · replace hb : isBoundary cfg s = false := by simpa using hb
          have hm : cfg.maxTrainSteps ≤ st.completedSteps := by omega
          have hstep : trainBatch cfg e { st with stopped := false } s =
              ⟨st.completedSteps, st.optSteps, st.skipped,
               st.processed ++ [(e, s)], true⟩ := by
            simp [trainBatch, hsk, hb, hm]
          rw [hstep, foldl_trainBatch_of_stopped _ _ _ _ rfl]
          show st.completedSteps ≤ _
          omega

theorem foldl_trainEpoch_cs_le (cfg : TrainConfig) (es : List Nat) (st : TrainState)
    (hres : cfg.resume = none) :
    (es.foldl (trainEpoch cfg) st).completedSteps ≤
      max st.completedSteps cfg.maxTrainSteps + es.length := by
  induction es generalizing st with
  | nil =>
      show st.completedSteps ≤ _
      omega
  | cons e t ih =>
      rw [List.foldl_cons]
      have h1 := trainEpoch_cs_le cfg st e hres
      have h2 := ih (trainEpoch cfg st e)
      rw [List.length_cons]
      omega

/-! ### Claim C2: final value of completed_steps -/

/-- C2, counterexample.  The claim states that an uncapped run ends with
`completed_steps = ceil(B / a) * E`.  With `B = 4` batches per epoch,
accumulation factor `a = 2`, `E = 3` epochs and `max_train_steps = 6`
(exactly the value `E * ceil(B / a)` that `main` derives at lines
609-613), the loop ends with `completed_steps = 7`, not
`ceil(4 / 2) * 3 = 6`; the configured maximum did not cap the count
lower (it was exceeded).  The discrepancy comes from line 736: batch
index 0 always satisfies `step % a == 0`, so an epoch whose last index
is not a multiple of `a` executes `ceil(B / a) + 1` optimizer steps. -/
theorem completedSteps_formula_counterexample :
    (runTraining ⟨4, 2, 3, 6, none⟩).completedSteps = 7 ∧
      (4 + 2 - 1) / 2 * 3 = 6 ∧ (7 : Nat) ≠ 6 := by
  decide

/-- C2, amended.  In a run without resume whose step cap is never
reached, an optimizer step (with scheduler step and gradient zeroing)
occurs exactly at the batches whose 0-based index is a multiple of the
accumulation factor or is the final index of the epoch, `completed_steps`
increments once per such boundary, and its final value is
`num_epochs * (⌊(B-1)/a⌋ + 1 + extra)` where `extra = 1` unless the last
batch index `B-1` is itself a multiple of `a`.  (This equals the
claimed `ceil(B/a) * num_epochs` only when `extra = 0`, e.g. in the
concrete scenario `B = 3, a = 2, E = 1` where the result is 2.) -/
theorem completedSteps_uncapped (cfg : TrainConfig)
    (hres : cfg.resume = none) (ha : 0 < cfg.accumSteps) (hB : 0 < cfg.numBatches)
    (hcap : cfg.numEpochs * boundaryCount cfg < cfg.maxTrainSteps) :
    (runTraining cfg).completedSteps = cfg.numEpochs * boundaryCount cfg ∧
    boundaryCount cfg = (cfg.numBatches - 1) / cfg.accumSteps + 1 +
      (if (cfg.numBatches - 1) % cfg.accumSteps = 0 then 0 else 1) ∧
    (runTraining cfg).optSteps = (List.range cfg.numEpochs).flatMap
      (fun e => ((List.range cfg.numBatches).filter (fun s => isBoundary cfg s)).map
        (fun s => (e, s))) := by
  have hes : List.range' (startingEpoch cfg) (cfg.numEpochs - startingEpoch cfg) =
      List.range cfg.numEpochs := by
    have hse : startingEpoch cfg = 0 := by simp [startingEpoch, hres]
    rw [hse, Nat.sub_zero, List.range_eq_range']
  unfold runTraining
  rw [hes,
    foldl_trainEpoch_clean cfg (List.range cfg.numEpochs) _ rfl
      (fun e _ s => by simp [skipCond, hres])
      (by show 0 + (List.range cfg.numEpochs).length * boundaryCount cfg < _
          rw [List.length_range, Nat.zero_add]
          exact hcap)]
  refine ⟨?_, boundaryCount_closed cfg ha hB, ?_⟩
  · show 0 + (List.range cfg.numEpochs).length * boundaryCount cfg = _
    rw [List.length_range, Nat.zero_add]
  · show [] ++ _ = _
    rw [List.nil_append]

/-- C2, witness for the amended theorem, at the claim's own concrete
scenario: 10 examples at batch size 4 give 3 batches; with accumulation
factor 2, one epoch and a high cap, `completed_steps` ends at
`1 * boundaryCount = 2`. -/
theorem completedSteps_uncapped_witness :
    (runTraining ⟨3, 2, 1, 100, none⟩).completedSteps =
        1 * boundaryCount ⟨3, 2, 1, 100, none⟩ ∧
      boundaryCount ⟨3, 2, 1, 100, none⟩ =
        (3 - 1) / 2 + 1 + (if (3 - 1) % 2 = 0 then 0 else 1) ∧
      (runTraining ⟨3, 2, 1, 100, none⟩).optSteps = (List.range 1).flatMap
        (fun e => ((List.range 3).filter
          (fun s => isBoundary ⟨3, 2, 1, 100, none⟩ s)).map (fun s => (e, s))) :=
  completedSteps_uncapped ⟨3, 2, 1, 100, none⟩ rfl (by decide) (by decide) (by decide)

/-! ### Claim C3: behaviour at the configured maximum step count -/

/-- C3, counterexample.  The claim states that no optimizer step is
executed after `completed_steps` first equals `max_train_steps`, so that
`completed_steps` never exceeds the maximum.  In the run with 4 batches
per epoch, accumulation factor 2, 3 epochs and `max_train_steps = 6`,
`completed_steps` reaches 6 at the end of epoch 1 but the final value is
7 > 6: the `break` at line 751 only leaves the inner batch loop, so
epoch 2 still executes one optimizer step (at its first batch, which is
always an accumulation boundary) before the check fires — epoch 2
processes only batch 0 out of 4. -/
theorem maxSteps_exceeded_counterexample :
    (runTraining ⟨4, 2, 3, 6, none⟩).completedSteps = 7 ∧
      6 < (runTraining ⟨4, 2, 3, 6, none⟩).completedSteps ∧
      (2, 0) ∈ (runTraining ⟨4, 2, 3, 6, none⟩).optSteps ∧
      (runTraining ⟨4, 2, 3, 6, none⟩).processed.filter (fun p => p.1 == 2) = [(2, 0)] := by
  decide

/-- Number of batches of epoch `e` that the resume fast-forward of
lines 713-716 skips. -/
def skipsInEpoch (cfg : TrainConfig) (e : Nat) : Nat :=
  (List.range cfg.numBatches).countP (fun s => skipCond cfg e s)

/-- The step-resume residual: how many batches the fast-forward of
lines 713-716 can skip in the starting epoch (0 when not resuming from
a step-tagged checkpoint). -/
def resumeResidual (cfg : TrainConfig) : Nat :=
  match cfg.resume with
  | some (_, some rs) => rs
  | _ => 0

example : (runTraining ⟨10, 2, 1, 1, some (0, some 9)⟩).completedSteps = 10 := by decide

theorem countP_lt_range (B rs : Nat) :
    (List.range B).countP (fun s => decide (s < rs)) = min B rs := by
  induction B with
  | zero => simp
  | succ B ih =>
      rw [List.range_succ, List.countP_append, ih]
      have hsing : ([B].countP (fun s => decide (s < rs))) =
          if B < rs then 1 else 0 := by
        simp [List.countP_cons]
      rw [hsing]
      by_cases h : B < rs
      · rw [if_pos h]
        omega
      · rw [if_neg h]
        omega

/-- The batch loop can push `completed_steps` past any bound it had only
through the unchecked resume skips of its step list, plus at most one
checked boundary step before the line-750 check breaks the loop. -/
theorem foldl_trainBatch_cs_bound (cfg : TrainConfig) (e : Nat) (l : List Nat)
    (st : TrainState) :
    (l.foldl (trainBatch cfg e) st).completedSteps ≤
      max (st.completedSteps + 1) cfg.maxTrainSteps +
        l.countP (fun s => skipCond cfg e s) := by
  induction l generalizing st with
  | nil =>
      simp only [List.foldl_nil, List.countP_nil]
      omega
  | cons s t ih =>
      rw [List.foldl_cons, List.countP_cons]
      by_cases h1 : st.stopped = true
      · rw [trainBatch_of_stopped _ _ _ _ h1]
        have h := ih st
        omega
      · replace h1 : st.stopped = false := by simpa using h1
        by_cases h2 : skipCond cfg e s = true
        · have hstep : trainBatch cfg e st s =
              ⟨st.completedSteps + 1, st.optSteps, st.skipped ++ [(e, s)],
               st.processed, false⟩ := by
            simp [trainBatch, h1, h2]
          rw [hstep]
          have h := ih (⟨st.completedSteps + 1, st.optSteps,
            st.skipped ++ [(e, s)], st.processed, false⟩ : TrainState)
          have hc : (⟨st.completedSteps + 1, st.optSteps,
              st.skipped ++ [(e, s)], st.processed, false⟩ :
              TrainState).completedSteps = st.completedSteps + 1 := rfl
          rw [hc] at h
          simp only [h2, if_true]
          omega
        · replace h2 : skipCond cfg e s = false := by simpa using h2
          rw [h2]
          by_cases h3 : isBoundary cfg s = true
          · by_cases h4 : cfg.maxTrainSteps ≤ st.completedSteps + 1
            · have hstep : trainBatch cfg e st s =
                  ⟨st.completedSteps + 1, st.optSteps ++ [(e, s)], st.skipped,
                   st.processed ++ [(e, s)], true⟩ := by
                simp [trainBatch, h1, h2, h3, h4]
              rw [hstep, foldl_trainBatch_of_stopped _ _ _ _ rfl]
              show st.completedSteps + 1 ≤ _
              omega
            · have hstep : trainBatch cfg e st s =
                  ⟨st.completedSteps + 1, st.optSteps ++ [(e, s)], st.skipped,
                   st.processed ++ [(e, s)], false⟩ := by
                simp [trainBatch, h1, h2, h3, h4]
              rw [hstep]
              have h := ih (⟨st.completedSteps + 1, st.optSteps ++ [(e, s)],
                st.skipped, st.processed ++ [(e, s)], false⟩ : TrainState)
              have hc : (⟨st.completedSteps + 1, st.optSteps ++ [(e, s)],
                  st.skipped, st.processed ++ [(e, s)], false⟩ :
                  TrainState).completedSteps = st.completedSteps + 1 := rfl
              rw [hc] at h
              omega
          · replace h3 : isBoundary cfg s = false := by simpa using h3
            by_cases h4 : cfg.maxTrainSteps ≤ st.completedSteps
            · have hstep : trainBatch cfg e st s =
                  ⟨st.completedSteps, st.optSteps, st.skipped,
                   st.processed ++ [(e, s)], true⟩ := by
                simp [trainBatch, h1, h2, h3, h4]
              rw [hstep, foldl_trainBatch_of_stopped _ _ _ _ rfl]
              show st.completedSteps ≤ _
              omega
            · have hstep : trainBatch cfg e st s =
                  ⟨st.completedSteps, st.optSteps, st.skipped,
                   st.processed ++ [(e, s)], false⟩ := by
                simp [trainBatch, h1, h2, h3, h4]
              rw [hstep]
              have h := ih (⟨st.completedSteps, st.optSteps, st.skipped,
                st.processed ++ [(e, s)], false⟩ : TrainState)
              have hc : (⟨st.completedSteps, st.optSteps, st.skipped,
                  st.processed ++ [(e, s)], false⟩ :
                  TrainState).completedSteps = st.completedSteps := rfl
              rw [hc] at h
              omega

theorem trainEpoch_cs_bound (cfg : TrainConfig) (st : TrainState) (e : Nat) :
    (trainEpoch cfg st e).completedSteps ≤
      max (st.completedSteps + 1) cfg.maxTrainSteps + skipsInEpoch cfg e := by
  have h := foldl_trainBatch_cs_bound cfg e (List.range cfg.numBatches)
    { st with stopped := false }
  simpa [trainEpoch, skipsInEpoch] using h

theorem foldl_trainEpoch_cs_bound (cfg : TrainConfig) (es : List Nat)
    (st : TrainState) :
    (es.foldl (trainEpoch cfg) st).completedSteps ≤
      max st.completedSteps cfg.maxTrainSteps + es.length +
        (es.map (skipsInEpoch cfg)).sum := by
  induction es generalizing st with
  | nil =>
      simp only [List.foldl_nil, List.length_nil, List.map_nil, List.sum_nil]
      omega
  | cons e t ih =>
      rw [List.foldl_cons, List.length_cons, List.map_cons, List.sum_cons]
      have h1 := trainEpoch_cs_bound cfg st e
      have h2 := ih (trainEpoch cfg st e)
      omega

theorem map_sum_le_single (f : Nat → Nat) (e0 bound : Nat)
    (h0 : ∀ e, e ≠ e0 → f e = 0) (h1 : f e0 ≤ bound) :
    ∀ es : List Nat, es.Nodup → (es.map f).sum ≤ bound := by
  intro es
  induction es with
  | nil =>
      intro _
      simp
  | cons x t ih =>
      intro hnd
      obtain ⟨hxnt, hndt⟩ := List.nodup_cons.mp hnd
      rw [List.map_cons, List.sum_cons]
      by_cases hx : x = e0
      · subst hx
        have hz : (t.map f).sum = 0 := by
          apply List.sum_eq_zero
          intro y hy
          obtain ⟨z, hzt, rfl⟩ := List.mem_map.mp hy
          exact h0 z (fun hzz => hxnt (hzz ▸ hzt))
        omega
      · rw [h0 x hx]
        have h := ih hndt
        omega

theorem skipsInEpoch_eq_zero_of_ne (cfg : TrainConfig) (se rs e : Nat)
    (hres : cfg.resume = some (se, some rs)) (hne : e ≠ se) :
    skipsInEpoch cfg e = 0 := by
  unfold skipsInEpoch
  rw [List.countP_eq_zero]
  intro a _
  simp [skipCond, hres, hne]

theorem skipsInEpoch_le_residual (cfg : TrainConfig) (se rs : Nat)
    (hres : cfg.resume = some (se, some rs)) :
    skipsInEpoch cfg se ≤ rs := by
  unfold skipsInEpoch
  have hcong : (List.range cfg.numBatches).countP (fun s => skipCond cfg se s) =
      (List.range cfg.numBatches).countP (fun s => decide (s < rs)) := by
    apply List.countP_congr
    intro x _
    simp [skipCond, hres]
  rw [hcong, countP_lt_range]
  omega

/-- Across a whole run the resume fast-forward fires in at most one
epoch (the starting epoch), at most `residual` times. -/
theorem sum_skips_le_residual (cfg : TrainConfig) (es : List Nat)
    (hnd : es.Nodup) :
    (es.map (skipsInEpoch cfg)).sum ≤ resumeResidual cfg := by
  cases hres : cfg.resume with
  | none =>
      have hz : (es.map (skipsInEpoch cfg)).sum = 0 := by
        apply List.sum_eq_zero
        intro y hy
        obtain ⟨e, _, rfl⟩ := List.mem_map.mp hy
        unfold skipsInEpoch
        rw [List.countP_eq_zero]
        intro a _
        simp [skipCond, hres]
      omega
  | some p =>
      obtain ⟨se, ors⟩ := p
      cases ors with
      | none =>
          have hz : (es.map (skipsInEpoch cfg)).sum = 0 := by
            apply List.sum_eq_zero
            intro y hy
            obtain ⟨e, _, rfl⟩ := List.mem_map.mp hy
            unfold skipsInEpoch
            rw [List.countP_eq_zero]
            intro a _
            simp [skipCond, hres]
          omega
      | some rs =>
          have hb := map_sum_le_single (skipsInEpoch cfg) se rs
            (fun e he => skipsInEpoch_eq_zero_of_ne cfg se rs e hres he)
            (skipsInEpoch_le_residual cfg se rs hres) es hnd
          have hr : resumeResidual cfg = rs := by simp [resumeResidual, hres]
          omega

/-- C3, amended.  Once `completed_steps` reaches the configured maximum
the current epoch's batch loop stops accepting steps (an epoch may end
before consuming all its batches), but `completed_steps` can still
exceed `max_train_steps`, in two ways: the `break` at line 751 leaves
only the inner loop, so every remaining epoch performs one optimizer
step on its first batch (always an accumulation boundary) before the
check fires; and in a resumed epoch the fast-forward at lines 713-716
increments `completed_steps` while `continue`-ing past the line-750
check entirely.  The final value is bounded, for every run, by
`max_train_steps + num_epochs + residual`, where `residual` is the
step-resume fast-forward count (0 when not resuming from a step-tagged
checkpoint). -/
theorem completedSteps_le_cap_plus_epochs_plus_residual (cfg : TrainConfig) :
    (runTraining cfg).completedSteps ≤
      cfg.maxTrainSteps + cfg.numEpochs + resumeResidual cfg := by
  unfold runTraining
  have h := foldl_trainEpoch_cs_bound cfg
    (List.range' (startingEpoch cfg) (cfg.numEpochs - startingEpoch cfg))
    ⟨0, [], [], [], false⟩
  have h0 : (⟨0, [], [], [], false⟩ : TrainState).completedSteps = 0 := rfl
  rw [h0, List.length_range'] at h
  have hsum := sum_skips_le_residual cfg
    (List.range' (startingEpoch cfg) (cfg.numEpochs - startingEpoch cfg))
    (List.nodup_range' _ _)
  omega

/-! ### Claim C4: resume semantics -/

/-- The two shapes of checkpoint names recognised at lines 674-683:
`epoch_<i>` and `step_<S>`. -/
inductive ResumeTag
  | epochTag (i : Nat)
  | stepTag (s : Nat)

/-- Lines 677-683: for an `epoch_<i>` checkpoint, restart at epoch
`i + 1` with no residual; for a `step_<S>` checkpoint, compute
`starting_epoch = S // len(train_dataloader)` and
`resume_step -= starting_epoch * len(train_dataloader)`. -/
def parseResumeTag (tag : ResumeTag) (numBatches : Nat) : Nat × Option Nat :=
  match tag with
  | .epochTag i => (i + 1, none)
  | .stepTag s => (s / numBatches, some (s - s / numBatches * numBatches))

theorem boundaryCount_le (cfg : TrainConfig) : boundaryCount cfg ≤ cfg.numBatches := by
  have h := List.countP_le_length (p := fun s => isBoundary cfg s)
    (l := List.range cfg.numBatches)
  simpa [boundaryCount] using h

/-- A run resumed from an epoch-tagged checkpoint (residual `none`):
no batch is ever skipped, and the processed batches are exactly all
batches of the epochs from `se` on. -/
theorem runTraining_epochResume (cfg : TrainConfig) (se : Nat)
    (hres : cfg.resume = some (se, none))
    (hcap : (cfg.numEpochs - se) * boundaryCount cfg < cfg.maxTrainSteps) :
    (runTraining cfg).skipped = [] ∧
    (runTraining cfg).processed = (List.range' se (cfg.numEpochs - se)).flatMap
      (fun e => (List.range cfg.numBatches).map (fun st => (e, st))) := by
  unfold runTraining
  have hse : startingEpoch cfg = se := by simp [startingEpoch, hres]
  rw [hse]
  have hcap0 : (0 : Nat) + (List.range' se (cfg.numEpochs - se)).length *
      boundaryCount cfg < cfg.maxTrainSteps := by
    rw [List.length_range']
    omega
  rw [foldl_trainEpoch_clean cfg _ _ rfl (fun e _ st => by simp [skipCond, hres]) hcap0]
  constructor
  · rfl
  · show [] ++ _ = _
    rw [List.nil_append]

/-- A run resumed from a step-tagged checkpoint with residual `rs`:
in the starting epoch the batches with index `< rs` are skipped and the
rest processed; every later epoch is processed in full. -/
theorem runTraining_stepResume (cfg : TrainConfig) (se rs : Nat)
    (hres : cfg.resume = some (se, some rs))
    (hrs : rs < cfg.numBatches) (hseE : se < cfg.numEpochs)
    (hM : cfg.numBatches + cfg.numEpochs * cfg.numBatches < cfg.maxTrainSteps) :
    (runTraining cfg).skipped = (List.range rs).map (fun st => (se, st)) ∧
    (runTraining cfg).processed =
      (List.range' rs (cfg.numBatches - rs)).map (fun st => (se, st)) ++
        (List.range' (se + 1) (cfg.numEpochs - (se + 1))).flatMap
          (fun e => (List.range cfg.numBatches).map (fun st => (e, st))) := by
  have hbc : boundaryCount cfg ≤ cfg.numBatches := boundaryCount_le cfg
  have hcnt' : (List.range' rs (cfg.numBatches - rs)).countP
      (fun s => isBoundary cfg s) ≤ cfg.numBatches - rs := by
    have h := List.countP_le_length (p := fun s => isBoundary cfg s)
      (l := List.range' rs (cfg.numBatches - rs))
    simpa [List.length_range'] using h
  unfold runTraining
  have hse : startingEpoch cfg = se := by simp [startingEpoch, hres]
  rw [hse]
  obtain ⟨k, hk⟩ : ∃ k, cfg.numEpochs - se = k + 1 :=
    ⟨cfg.numEpochs - se - 1, by omega⟩
  have hk2 : k = cfg.numEpochs - (se + 1) := by omega
  rw [hk, List.range'_succ, List.foldl_cons]
  have hcapR : (0 : Nat) + rs + (List.range' rs (cfg.numBatches - rs)).countP
      (fun s => isBoundary cfg s) < cfg.maxTrainSteps := by omega
  rw [trainEpoch_resume cfg _ se rs rfl hres (by omega) hcapR]
  have hkbc : k * boundaryCount cfg ≤ cfg.numEpochs * cfg.numBatches :=
    Nat.mul_le_mul (by omega) hbc
  have hcapC : (0 : Nat) + rs + (List.range' rs (cfg.numBatches - rs)).countP
      (fun s => isBoundary cfg s) +
      (List.range' (se + 1) k).length * boundaryCount cfg < cfg.maxTrainSteps := by
    rw [List.length_range']
    omega
  rw [foldl_trainEpoch_clean cfg _ _ rfl
    (fun e he st => by
      obtain ⟨j, hj, rfl⟩ := List.mem_range'.mp he
      simp [skipCond, hres]
      omega)
    hcapC]
  rw [hk2]
  constructor
  · show [] ++ _ = _
    rw [List.nil_append]
  · show ([] ++ _) ++ _ = _
    rw [List.nil_append]

/-- C4.  Resume semantics.  For an epoch-tagged checkpoint `epoch_<i>`,
the parse yields starting epoch `i + 1` with no residual, and the run
skips no batch and processes all batches of epochs `i+1 .. E-1` from
batch index 0.  For a step-tagged checkpoint `step_<S>`, the parse
yields `starting_epoch = S / B` and residual `S - (S / B) * B = S % B`;
in the run, exactly the batches of epoch `S / B` with index below the
residual are skipped, the batches at or after the residual (and all
batches of later epochs) are processed normally, and every unit of
`completed_steps` is accounted for by one skipped batch or one
optimizer step (so each skipped batch increments it by 1). -/
theorem resume_semantics (B a E M i s : Nat) (hB : 0 < B) (hsE : s / B < E)
    (hM : B + E * B < M) :
    (parseResumeTag (ResumeTag.epochTag i) B = (i + 1, none) ∧
      (runTraining ⟨B, a, E, M, some (i + 1, none)⟩).skipped = [] ∧
      (runTraining ⟨B, a, E, M, some (i + 1, none)⟩).processed =
        (List.range' (i + 1) (E - (i + 1))).flatMap
          (fun e => (List.range B).map (fun st => (e, st)))) ∧
    (parseResumeTag (ResumeTag.stepTag s) B = (s / B, some (s % B)) ∧
      (runTraining ⟨B, a, E, M, some (s / B, some (s % B))⟩).skipped =
        (List.range (s % B)).map (fun st => (s / B, st)) ∧
      (runTraining ⟨B, a, E, M, some (s / B, some (s % B))⟩).processed =
        (List.range' (s % B) (B - s % B)).map (fun st => (s / B, st)) ++
          (List.range' (s / B + 1) (E - (s / B + 1))).flatMap
            (fun e => (List.range B).map (fun st => (e, st))) ∧
      (runTraining ⟨B, a, E, M, some (s / B, some (s % B))⟩).completedSteps =
        (runTraining ⟨B, a, E, M, some (s / B, some (s % B))⟩).skipped.length +
          (runTraining ⟨B, a, E, M, some (s / B, some (s % B))⟩).optSteps.length) := by
  have hbc1 : boundaryCount ⟨B, a, E, M, some (i + 1, none)⟩ ≤ B :=
    boundaryCount_le _
  have hcap1 : (E - (i + 1)) * boundaryCount ⟨B, a, E, M, some (i + 1, none)⟩ < M := by
    have := Nat.mul_le_mul (show E - (i + 1) ≤ E by omega) hbc1
    omega
  have h1 := runTraining_epochResume ⟨B, a, E, M, some (i + 1, none)⟩ (i + 1) rfl hcap1
  have hps : s - s / B * B = s % B := by
    have hdm := Nat.div_add_mod s B
    have hcm : s / B * B = B * (s / B) := Nat.mul_comm _ _
    omega
  have h2 := runTraining_stepResume ⟨B, a, E, M, some (s / B, some (s % B))⟩
    (s / B) (s % B) rfl (Nat.mod_lt s hB) hsE hM
  exact ⟨⟨rfl, h1.1, h1.2⟩,
    ⟨by simp [parseResumeTag, hps], h2.1, h2.2, runTraining_counter _⟩⟩

/-- C4, witness: resuming from `step_5` with 4 batches per epoch and 3
epochs gives starting epoch 1 and residual 1; batch (1,0) is skipped,
batches (1,1).. (1,3) and all of epoch 2 are processed. -/
theorem resume_semantics_witness :
    (parseResumeTag (ResumeTag.epochTag 0) 4 = (0 + 1, none) ∧
      (runTraining ⟨4, 2, 3, 100, some (0 + 1, none)⟩).skipped = [] ∧
      (runTraining ⟨4, 2, 3, 100, some (0 + 1, none)⟩).processed =
        (List.range' (0 + 1) (3 - (0 + 1))).flatMap
          (fun e => (List.range 4).map (fun st => (e, st)))) ∧
    (parseResumeTag (ResumeTag.stepTag 5) 4 = (5 / 4, some (5 % 4)) ∧
      (runTraining ⟨4, 2, 3, 100, some (5 / 4, some (5 % 4))⟩).skipped =
        (List.range (5 % 4)).map (fun st => (5 / 4, st)) ∧
      (runTraining ⟨4, 2, 3, 100, some (5 / 4, some (5 % 4))⟩).processed =
        (List.range' (5 % 4) (4 - 5 % 4)).map (fun st => (5 / 4, st)) ++
          (List.range' (5 / 4 + 1) (3 - (5 / 4 + 1))).flatMap
            (fun e => (List.range 4).map (fun st => (e, st))) ∧
      (runTraining ⟨4, 2, 3, 100, some (5 / 4, some (5 % 4))⟩).completedSteps =
        (runTraining ⟨4, 2, 3, 100, some (5 / 4, some (5 % 4))⟩).skipped.length +
          (runTraining ⟨4, 2, 3, 100, some (5 / 4, some (5 % 4))⟩).optSteps.length) :=
  resume_semantics 4 2 3 100 0 5 (by decide) (by decide) (by decide)

/-! ## Claim C1: training-dynamics recording and dedup (lines 764-796)

The gather at line 777 yields, on every process, the concatenated
`(idx, label, logits)` triples of all workers for the current batch;
padding can duplicate examples.  Lines 781-786 iterate the flattened
gathered triples of the whole epoch and keep a record for a triple iff
its `idx` is not already in `all_ids`. -/

/-- One gathered `(idx, label, logits)` triple from line 781. -/
structure GatheredExample where
  idx : Nat
  label : Int
  logits : List Rat
deriving DecidableEq

/-- One training-dynamics record as built at line 785:
`{'guid': idx, 'logits_epoch_N': logits, 'gold': label, 'device': dev}`. -/
structure DynRecord where
  guid : Nat
  logits : List Rat
  gold : Int
  device : String
deriving DecidableEq

/-- Lines 782-786: skip the triple when `idx in all_ids`, otherwise
append `idx` to `all_ids` and the record to `training_dynamics`. -/
def dedupStep (dev : String) (acc : List DynRecord × List Nat)
    (g : GatheredExample) : List DynRecord × List Nat :=
  if g.idx ∈ acc.2 then acc
  else (acc.1 ++ [⟨g.idx, g.logits, g.label, dev⟩], acc.2 ++ [g.idx])

/-- The per-epoch recording pass over the flattened gathered triples
(`training_dynamics` and `all_ids` start empty at lines 764-765). -/
def recordEpochDynamics (dev : String) (gathered : List GatheredExample) :
    List DynRecord :=
  (gathered.foldl (dedupStep dev) ([], [])).1

/-- Invariant of the dedup fold: `all_ids` is always exactly the list of
guids already recorded, and for every guid `i` the records kept for `i`
are those already kept plus (if `i` is not yet seen) the first gathered
triple with that `idx`. -/
theorem dedup_fold_filter (dev : String) (g : List GatheredExample) :
    ∀ (out : List DynRecord) (seen : List Nat),
    seen = out.map (fun r => r.guid) →
    ((g.foldl (dedupStep dev) (out, seen)).2 =
      (g.foldl (dedupStep dev) (out, seen)).1.map (fun r => r.guid)) ∧
    ∀ i, (g.foldl (dedupStep dev) (out, seen)).1.filter (fun r => r.guid == i) =
      out.filter (fun r => r.guid == i) ++
        (if i ∈ seen then [] else
          ((g.find? (fun x => x.idx == i)).map
            (fun x => (⟨x.idx, x.logits, x.label, dev⟩ : DynRecord))).toList) := by
  induction g with
  | nil =>
      intro out seen hinv
      refine ⟨hinv, fun i => ?_⟩
      by_cases h : i ∈ seen <;> simp [h]
  | cons x g' ih =>
      intro out seen hinv
      by_cases hx : x.idx ∈ seen
      · have hstep : dedupStep dev (out, seen) x = (out, seen) := by
          simp [dedupStep, hx]
        rw [List.foldl_cons, hstep]
        obtain ⟨ih1, ih2⟩ := ih out seen hinv
        refine ⟨ih1, fun i => ?_⟩
        rw [ih2 i]
        by_cases hi : i ∈ seen
        · simp [hi]
        · have hneq : x.idx ≠ i := fun h => hi (h ▸ hx)
          have hfind : List.find? (fun y => y.idx == i) (x :: g') =
              List.find? (fun y => y.idx == i) g' :=
            List.find?_cons_of_neg g' (by simpa using hneq)
          simp [hi, hfind]
      · have hstep : dedupStep dev (out, seen) x =
            (out ++ [⟨x.idx, x.logits, x.label, dev⟩], seen ++ [x.idx]) := by
          simp [dedupStep, hx]
        rw [List.foldl_cons, hstep]
        have hinv' : seen ++ [x.idx] =
            (out ++ [(⟨x.idx, x.logits, x.label, dev⟩ : DynRecord)]).map
              (fun r => r.guid) := by
          simp [hinv]
        obtain ⟨ih1, ih2⟩ := ih _ _ hinv'
        refine ⟨ih1, fun i => ?_⟩
        rw [ih2 i]
        by_cases hxi : x.idx = i
        · subst hxi
          have hfind : List.find? (fun y => y.idx == x.idx) (x :: g') = some x :=
            List.find?_cons_of_pos g' (by simp)
          simp [List.filter_append, hfind, hx]
        · have hfind : List.find? (fun y => y.idx == i) (x :: g') =
              List.find? (fun y => y.idx == i) g' :=
            List.find?_cons_of_neg g' (by simpa using hxi)
          have hguid : ((⟨x.idx, x.logits, x.label, dev⟩ : DynRecord).guid == i) = false := by
            simpa using hxi
          by_cases hi : i ∈ seen
          · simp [List.filter_append, hguid, hi, hfind]
          · have hi' : ¬ i ∈ seen ++ [x.idx] := by
              intro h
              rcases List.mem_append.mp h with h' | h'
              · exact hi h'
              · exact hxi (List.mem_singleton.mp h').symm
            simp [List.filter_append, hguid, hi, hi', hfind]

/-- C1.  For every epoch in which dynamics recording is enabled and every
training example, the epoch's output stream holds exactly one record
whose `guid` equals the example's `idx` — no duplicates and no omissions
— provided the gathered stream covers every training `idx` (the
`accelerator.gather` contract: padding duplicates examples, it never
drops one).  Moreover the kept record for a guid is exactly the first
gathered triple with that `idx` (first-seen-guid policy), and the guids
of the output stream are pairwise distinct unconditionally. -/
theorem dynamics_one_record_per_example (dev : String)
    (gathered : List GatheredExample) (datasetIdx : List Nat)
    (hcov : ∀ i ∈ datasetIdx, ∃ x ∈ gathered, x.idx = i) :
    (∀ i ∈ datasetIdx,
      ((recordEpochDynamics dev gathered).filter (fun r => r.guid == i)).length = 1) ∧
    ((recordEpochDynamics dev gathered).map (fun r => r.guid)).Nodup ∧
    (∀ i, (recordEpochDynamics dev gathered).filter (fun r => r.guid == i) =
      ((gathered.find? (fun x => x.idx == i)).map
        (fun x => (⟨x.idx, x.logits, x.label, dev⟩ : DynRecord))).toList) := by
  have key := dedup_fold_filter dev gathered [] [] rfl
  have hfil : ∀ i, (recordEpochDynamics dev gathered).filter (fun r => r.guid == i) =
      ((gathered.find? (fun x => x.idx == i)).map
        (fun x => (⟨x.idx, x.logits, x.label, dev⟩ : DynRecord))).toList := by
    intro i
    have h := key.2 i
    simpa [recordEpochDynamics] using h
  refine ⟨?_, ?_, hfil⟩
  · intro i hi
    obtain ⟨x, hxmem, hxi⟩ := hcov i hi
    have hsome : (gathered.find? (fun x => x.idx == i)).isSome := by
      rw [List.find?_isSome]
      exact ⟨x, hxmem, by simp [hxi]⟩
    obtain ⟨y, hy⟩ := Option.isSome_iff_exists.mp hsome
    rw [hfil i, hy]
    rfl
  · rw [List.nodup_iff_count_le_one]
    intro g
    have h1 : (List.map (fun r => r.guid) (recordEpochDynamics dev gathered)).count g =
        ((recordEpochDynamics dev gathered).filter (fun r => r.guid == g)).length := by
      rw [List.count_eq_countP, List.countP_map, ← List.countP_eq_length_filter]
      rfl
    rw [h1, hfil g]
    cases gathered.find? (fun x => x.idx == g) <;> simp

/-- C1, witness: three training examples `idx ∈ {0,1,2}` gathered with a
padded duplicate of `idx = 2` (whose logits differ): example 2 still
gets exactly one record, the guids are distinct, and the record kept for
guid 2 is the first gathered copy. -/
theorem dynamics_one_record_per_example_witness :
    ((recordEpochDynamics "cuda:0"
        [⟨0, 5, [1]⟩, ⟨1, 7, [2]⟩, ⟨2, 9, [3]⟩, ⟨2, 9, [4]⟩]).filter
      (fun r => r.guid == 2)).length = 1 ∧
    ((recordEpochDynamics "cuda:0"
        [⟨0, 5, [1]⟩, ⟨1, 7, [2]⟩, ⟨2, 9, [3]⟩, ⟨2, 9, [4]⟩]).map
      (fun r => r.guid)).Nodup ∧
    (recordEpochDynamics "cuda:0"
        [⟨0, 5, [1]⟩, ⟨1, 7, [2]⟩, ⟨2, 9, [3]⟩, ⟨2, 9, [4]⟩]).filter
      (fun r => r.guid == 2) =
      (([⟨0, 5, [1]⟩, ⟨1, 7, [2]⟩, ⟨2, 9, [3]⟩,
          (⟨2, 9, [4]⟩ : GatheredExample)].find? (fun x => x.idx == 2)).map
        (fun x => (⟨x.idx, x.logits, x.label, "cuda:0"⟩ : DynRecord))).toList := by
  have h := dynamics_one_record_per_example "cuda:0"
    [⟨0, 5, [1]⟩, ⟨1, 7, [2]⟩, ⟨2, 9, [3]⟩, ⟨2, 9, [4]⟩] [0, 1, 2]
    (by
      intro i hi
      fin_cases hi
      · exact ⟨⟨0, 5, [1]⟩, by simp, rfl⟩
      · exact ⟨⟨1, 7, [2]⟩, by simp, rfl⟩
      · exact ⟨⟨2, 9, [3]⟩, by simp, rfl⟩)
  exact ⟨h.1 2 (by simp), h.2.1, h.2.2 2⟩

/-! ## Claim C8: order of the post-epoch recording pass

The recording pass at line 766 iterates `train_dataloader`, the very
loader created at line 568 with `shuffle=True`; each fresh iteration of
a shuffled PyTorch DataLoader draws a new random permutation of the
dataset.  The examples therefore reach the recording forward passes in
that shuffled order. -/

/-- The order in which the recording pass of line 766 visits the
training examples: the shuffled dataloader's permutation `perm` (a
permutation of `List.range data.length`, drawn afresh for this
iteration per the `shuffle=True` flag of line 568) applied to the
dataset. -/
def recordingPassOrder (data : List Nat) (perm : List Nat) : List Nat :=
  perm.map (fun i => data.getD i 0)

/-- Modelled from the spec: the spec asserts the recording pass visits
the training set "in original, non-shuffled batch order", i.e. in the
dataset's own order. -/
def recordingPassOrder_spec (data : List Nat) : List Nat := data

/-- C8, counterexample.  The permutation `[1, 0]` is a legitimate draw
of the shuffled training dataloader over a 2-example dataset, and the
recording pass then visits the examples as `[20, 10]`, which is not the
original order `[10, 20]` the claim asserts. -/
theorem recording_order_counterexample :
    List.Perm [1, 0] (List.range 2) ∧
    recordingPassOrder [10, 20] [1, 0] = [20, 10] ∧
    recordingPassOrder [10, 20] [1, 0] ≠ recordingPassOrder_spec [10, 20] := by
  refine ⟨by decide, rfl, by decide⟩

/-- C8, amended.  The post-epoch recording pass does visit the entire
training set, producing one forward pass (hence one class-score vector)
per example with the post-epoch parameters — the visited sequence is a
permutation of the dataset — but in the order produced by the shuffled
training dataloader, not necessarily the dataset's original order. -/
theorem recording_order_perm (data : List Nat) (perm : List Nat)
    (hperm : List.Perm perm (List.range data.length)) :
    List.Perm (recordingPassOrder data perm) data := by
  unfold recordingPassOrder
  have h2 : (List.range data.length).map (fun i => data.getD i 0) = data := by
    apply List.ext_getElem
    · simp
    · intro n hn1 hn2
      simp [List.getElem?_eq_getElem hn2]
  have h1 := hperm.map (fun i => data.getD i 0)
  rw [h2] at h1
  exact h1

/-- C8, witness: the amended theorem applied to the concrete shuffled
pass of the counterexample. -/
theorem recording_order_perm_witness :
    List.Perm (recordingPassOrder [10, 20] [1, 0]) [10, 20] :=
  recording_order_perm [10, 20] [1, 0] (by decide)

/-! ## Claim C9: checkpoint-source selection (lines 664-675) -/

/-- How the resume checkpoint is obtained: from the explicitly given
path, or by scanning the working directory for the most recent
checkpoint directory. -/
inductive ResumeSource
  | explicitPath (p : String)
  | scanMostRecent
deriving DecidableEq

/-- Python truthiness of `args.resume_from_checkpoint`
(an `Option String`: `None`, or the string passed on the command line). -/
def pyTruthy (rfc : Option String) : Bool :=
  match rfc with
  | none => false
  | some s => !(s == "")

/-- Lines 664-675: `if args.resume_from_checkpoint:` then
`if args.resume_from_checkpoint is not None or args.resume_from_checkpoint != "":`
loads from the given path, `else` scans and sorts the working directory. -/
def chooseResumeSource (rfc : Option String) : Option ResumeSource :=
  if pyTruthy rfc then
    if rfc ≠ none ∨ rfc ≠ some "" then
      some (ResumeSource.explicitPath (rfc.getD ""))
    else
      some ResumeSource.scanMostRecent
  else
    none

/-- C9.  Whenever a resume is requested (the argument is truthy), the
checkpoint is loaded from exactly the given path, and the fallback
branch that scans the working directory is unreachable for every input:
the guard `is not None or != ""` is true for every value that passes the
enclosing truthiness test. -/
theorem resume_scan_unreachable (rfc : Option String) :
    chooseResumeSource rfc ≠ some ResumeSource.scanMostRecent ∧
    (pyTruthy rfc = true →
      ∃ p, rfc = some p ∧ chooseResumeSource rfc = some (ResumeSource.explicitPath p)) := by
  constructor
  · cases rfc with
    | none => simp [chooseResumeSource, pyTruthy]
    | some s =>
        by_cases hs : s = ""
        · simp [chooseResumeSource, pyTruthy, hs]
        · simp [chooseResumeSource, pyTruthy, hs]
  · intro ht
    cases rfc with
    | none => simp [pyTruthy] at ht
    | some s =>
        refine ⟨s, rfl, ?_⟩
        have hs : ¬ (s = "") := by
          simp [pyTruthy] at ht
          exact ht
        simp [chooseResumeSource, pyTruthy, hs]

/-- C9, witness: a concrete truthy argument resumes from its own path
and never from a directory scan. -/
theorem resume_scan_unreachable_witness :
    chooseResumeSource (some "output/step_40") ≠ some ResumeSource.scanMostRecent ∧
    (∃ p, (some "output/step_40" : Option String) = some p ∧
      chooseResumeSource (some "output/step_40") = some (ResumeSource.explicitPath p)) :=
  ⟨(resume_scan_unreachable (some "output/step_40")).1,
   (resume_scan_unreachable (some "output/step_40")).2 (by decide)⟩

/-! ## Claim C6: missing sample-weight entries (lines 718-721) -/

/-- Lookup in the Sample Weight Table `idx2weight` (unpickled at line
720).  `none` models a missing dict key. -/
def lookupWeight (table : List (Nat × Rat)) (i : Nat) : Option Rat :=
  (table.find? (fun p => p.1 == i)).map (fun p => p.2)

/-- Line 721: `sample_weights = [idx2weight[int(idx)] for idx in batch['idx']]`.
The comprehension evaluates left to right; a missing key raises
`KeyError`, which nothing in the run catches. -/
def buildSampleWeights (table : List (Nat × Rat)) : List Nat → Except PyError (List Rat)
  | [] => Except.ok []
  | i :: rest =>
      match lookupWeight table i with
      | none => Except.error PyError.keyError
      | some w =>
          match buildSampleWeights table rest with
          | Except.ok ws => Except.ok (w :: ws)
          | Except.error e => Except.error e

/-- C6.  In sample-weighted loss mode, the step fails with a
`KeyError`-class error iff some `idx` of the batch is absent from the
Sample Weight Table; when every `idx` is present, the weight list is
built (one weight per example) and no such error is raised. -/
theorem sample_weight_keyError (table : List (Nat × Rat)) (idxs : List Nat) :
    ((∃ i ∈ idxs, lookupWeight table i = none) →
      buildSampleWeights table idxs = Except.error PyError.keyError) ∧
    ((∀ i ∈ idxs, ∃ w, lookupWeight table i = some w) →
      ∃ ws, buildSampleWeights table idxs = Except.ok ws ∧ ws.length = idxs.length) := by
  induction idxs with
  | nil =>
      constructor
      · rintro ⟨i, hi, -⟩
        cases hi
      · intro _
        exact ⟨[], rfl, rfl⟩
  | cons i rest ih =>
      constructor
      · rintro ⟨j, hj, hnone⟩
        rcases List.mem_cons.mp hj with rfl | hj'
        · simp [buildSampleWeights, hnone]
        · cases hw : lookupWeight table i with
          | none => simp [buildSampleWeights, hw]
          | some w =>
              have herr := ih.1 ⟨j, hj', hnone⟩
              simp [buildSampleWeights, hw, herr]
      · intro hall
        obtain ⟨w, hw⟩ := hall i (by simp)
        obtain ⟨ws, hws, hlen⟩ := ih.2 (fun j hj => hall j (List.mem_cons_of_mem _ hj))
        exact ⟨w :: ws, by simp [buildSampleWeights, hw, hws], by simp [hlen]⟩

/-- C6, witness: with the table `{0 ↦ 1}`, the batch `[0, 5]` fails with
`KeyError` (idx 5 is absent) while the batch `[0]` succeeds. -/
theorem sample_weight_keyError_witness :
    buildSampleWeights [(0, 1)] [0, 5] = Except.error PyError.keyError ∧
    (∃ ws, buildSampleWeights [(0, 1)] [0] = Except.ok ws ∧ ws.length = [0].length) :=
  ⟨(sample_weight_keyError [(0, 1)] [0, 5]).1 ⟨5, by decide, by decide⟩,
   (sample_weight_keyError [(0, 1)] [0]).2
     (by
       intro i hi
       fin_cases hi
       exact ⟨1, rfl⟩)⟩

/-! ## Claim C10: the continuation phase reuses idx2weight (lines 975-981)

`idx2weight` is only ever assigned inside the primary phase's
sample-weighted branch (line 720); the continuation branch at line 977
reads it without any load. -/

/-- The state of the Python name `idx2weight` across the run: `none`
models an unbound name; `fileLoads` counts how many times the weight
pickle file has been opened. -/
structure WeightTableState where
  idx2weight : Option (List (Nat × Rat))
  fileLoads : Nat
deriving DecidableEq

/-- Lines 718-720: one primary-phase batch; when
`args.train_with_sample_loss` is set, the pickle is (re-)loaded and the
result bound to `idx2weight`. -/
def primaryBatchTable (trainWithSampleLoss : Bool) (table : List (Nat × Rat))
    (st : WeightTableState) : WeightTableState :=
  if trainWithSampleLoss then ⟨some table, st.fileLoads + 1⟩ else st

/-- The primary phase over `n` batches, starting with `idx2weight`
unbound. -/
def runPrimaryTable (trainWithSampleLoss : Bool) (table : List (Nat × Rat))
    (n : Nat) : WeightTableState :=
  (List.range n).foldl (fun st _ => primaryBatchTable trainWithSampleLoss table st)
    ⟨none, 0⟩

/-- Lines 976-981: one continuation-phase batch with
`args.continue_train_with_sample_loss` set evaluates
`[idx2weight[int(idx)] for idx in batch['idx']]`: a `NameError` if
`idx2weight` was never bound, otherwise plain dict lookups with no file
access. -/
def continuationBatchWeights (contFlag : Bool) (batchIdxs : List Nat)
    (st : WeightTableState) : Except PyError (List Rat) × WeightTableState :=
  if contFlag then
    match st.idx2weight with
    | none => (Except.error PyError.nameError, st)
    | some t => (buildSampleWeights t batchIdxs, st)
  else (Except.ok [], st)

/-- C10.  If the primary phase ran without sample-weighted loss,
`idx2weight` is unbound and the first continuation batch with
continuation sample-weighted loss fails with a `NameError`-class error;
conversely, if the primary phase (at least one batch) used
sample-weighted loss, the continuation batch reuses the bound table —
its lookups are exactly `buildSampleWeights` on that table — without
opening the weight file again. -/
theorem continuation_nameError (table : List (Nat × Rat)) (n : Nat)
    (batchIdxs : List Nat) :
    ((runPrimaryTable false table n).idx2weight = none ∧
      (continuationBatchWeights true batchIdxs (runPrimaryTable false table n)).1 =
        Except.error PyError.nameError) ∧
    (0 < n →
      (runPrimaryTable true table n).idx2weight = some table ∧
      (continuationBatchWeights true batchIdxs (runPrimaryTable true table n)).1 =
        buildSampleWeights table batchIdxs ∧
      (continuationBatchWeights true batchIdxs
          (runPrimaryTable true table n)).2.fileLoads =
        (runPrimaryTable true table n).fileLoads) := by
  have hid : ∀ (l : List Nat),
      l.foldl (fun st _ => primaryBatchTable false table st)
        (⟨none, 0⟩ : WeightTableState) = ⟨none, 0⟩ := by
    intro l
    induction l with
    | nil => rfl
    | cons x t ih => simpa [primaryBatchTable] using ih
  have hkeep : ∀ (l : List Nat) (st : WeightTableState), l ≠ [] →
      (l.foldl (fun st _ => primaryBatchTable true table st) st).idx2weight =
        some table := by
    intro l
    induction l with
    | nil => exact fun st h => absurd rfl h
    | cons x t ih =>
        intro st _
        rw [List.foldl_cons]
        cases t with
        | nil => simp [primaryBatchTable]
        | cons y u => exact ih _ (by simp)
  constructor
  · have h0 : (runPrimaryTable false table n).idx2weight = none := by
      unfold runPrimaryTable
      rw [hid]
    exact ⟨h0, by simp [continuationBatchWeights, h0]⟩
  · intro hn
    have h1 : (runPrimaryTable true table n).idx2weight = some table := by
      unfold runPrimaryTable
      exact hkeep _ _ (List.range_ne_nil.mpr (by omega))
    exact ⟨h1, by simp [continuationBatchWeights, h1],
      by simp [continuationBatchWeights, h1]⟩

/-- C10, witness: primary phase of 2 batches; without the primary flag
the continuation batch raises `NameError`, with it the table `{0 ↦ 1}`
is reused with no further file load. -/
theorem continuation_nameError_witness :
    ((runPrimaryTable false [(0, 1)] 2).idx2weight = none ∧
      (continuationBatchWeights true [0] (runPrimaryTable false [(0, 1)] 2)).1 =
        Except.error PyError.nameError) ∧
    ((runPrimaryTable true [(0, 1)] 2).idx2weight = some [(0, 1)] ∧
      (continuationBatchWeights true [0] (runPrimaryTable true [(0, 1)] 2)).1 =
        buildSampleWeights [(0, 1)] [0] ∧
      (continuationBatchWeights true [0] (runPrimaryTable true [(0, 1)] 2)).2.fileLoads =
        (runPrimaryTable true [(0, 1)] 2).fileLoads) :=
  ⟨(continuation_nameError [(0, 1)] 2 [0]).1,
   (continuation_nameError [(0, 1)] 2 [0]).2 (by decide)⟩

/-! ## Claim C5: the sample-weighted loss (lines 690-699)

Machine floats are idealised as real numbers, so the claim's "within
floating tolerance" becomes exact equality. -/

/-- Per-example cross-entropy with no reduction
(`CrossEntropyLoss(reduction="none")`, line 692): for each logits row
and gold label, `log (Σ exp logits) - logits[label]`. -/
noncomputable def ce_loss_none (logits : List (List Real)) (labels : List Nat) :
    List Real :=
  (logits.zip labels).map
    (fun p => Real.log ((p.1.map Real.exp).sum) - p.1.getD p.2 0)

/-- Lines 693-699, `loss_fct_with_sample_weights`: the unreduced
per-example losses multiplied elementwise by the weights, then `.mean()`
— the sum of the products divided by their number (the batch size). -/
noncomputable def loss_fct_with_sample_weights (logits : List (List Real))
    (labels : List Nat) (weights : List Real) : Real :=
  (List.zipWith (fun l w => l * w) (ce_loss_none logits labels) weights).sum /
    (List.zipWith (fun l w => l * w) (ce_loss_none logits labels) weights).length

/-- The model's own per-batch loss in classification mode
(`outputs.loss`, line 730): the mean cross-entropy over the batch. -/
noncomputable def plain_mean_ce (logits : List (List Real)) (labels : List Nat) : Real :=
  (ce_loss_none logits labels).sum / (ce_loss_none logits labels).length

theorem zipWith_mul_sum_eq (l w : List Real) (h : w.length = l.length) :
    (List.zipWith (fun a b => a * b) l w).sum =
      ∑ k ∈ Finset.range l.length, l.getD k 0 * w.getD k 0 := by
  induction l generalizing w with
  | nil => simp
  | cons a t ih =>
      cases w with
      | nil => simp at h
      | cons b u =>
          rw [List.zipWith_cons_cons, List.sum_cons,
            ih u (by simpa using h), List.length_cons, Finset.sum_range_succ']
          simp [add_comm]

theorem zipWith_mul_ones (l w : List Real) (h : w.length = l.length)
    (hw : ∀ x ∈ w, x = 1) : List.zipWith (fun a b => a * b) l w = l := by
  induction l generalizing w with
  | nil => simp
  | cons a t ih =>
      cases w with
      | nil => simp at h
      | cons b u =>
          have hb : b = 1 := hw b (by simp)
          rw [List.zipWith_cons_cons, hb, mul_one,
            ih u (by simpa using h) (fun x hx => hw x (by simp [hx]))]

/-- C5.  The sample-weighted loss equals
`(Σ_k loss_k * weight_k) / batch_size` where `loss_k` is the unreduced
per-example cross-entropy, and when every weight equals 1 it coincides
exactly with the plain unweighted mean cross-entropy on the same
batch. -/
theorem sample_weighted_loss_eq (logits : List (List Real)) (labels : List Nat)
    (weights : List Real)
    (hlen : weights.length = (ce_loss_none logits labels).length) :
    loss_fct_with_sample_weights logits labels weights =
      (∑ k ∈ Finset.range (ce_loss_none logits labels).length,
        (ce_loss_none logits labels).getD k 0 * weights.getD k 0) /
        (ce_loss_none logits labels).length ∧
    ((∀ x ∈ weights, x = 1) →
      loss_fct_with_sample_weights logits labels weights =
        plain_mean_ce logits labels) := by
  constructor
  · unfold loss_fct_with_sample_weights
    rw [zipWith_mul_sum_eq _ _ hlen, List.length_zipWith, hlen, Nat.min_self]
  · intro hw
    unfold loss_fct_with_sample_weights plain_mean_ce
    rw [zipWith_mul_ones _ _ hlen hw]

/-- C5, witness: a batch of two examples, two classes each, with both
weights 1: the weighted loss equals both the explicit weighted-sum
formula and the plain mean loss. -/
theorem sample_weighted_loss_eq_witness :
    loss_fct_with_sample_weights [[0, 1], [2, 0]] [0, 1] [1, 1] =
      (∑ k ∈ Finset.range (ce_loss_none [[0, 1], [2, 0]] [0, 1]).length,
        (ce_loss_none [[0, 1], [2, 0]] [0, 1]).getD k 0 *
          ([1, 1] : List Real).getD k 0) /
        (ce_loss_none [[0, 1], [2, 0]] [0, 1]).length ∧
    loss_fct_with_sample_weights [[0, 1], [2, 0]] [0, 1] [1, 1] =
      plain_mean_ce [[0, 1], [2, 0]] [0, 1] := by
  have h := sample_weighted_loss_eq [[0, 1], [2, 0]] [0, 1] [1, 1] rfl
  exact ⟨h.1, h.2 (by
    intro x hx
    fin_cases hx <;> rfl)⟩

/-! ## Claim C7: the distillation-augmented continuation loss (lines 990-1006) -/

/-- `nn.functional.softmax(v, dim=-1)` on one logits row. -/
noncomputable def softmaxRow (v : List Real) : List Real :=
  v.map (fun x => Real.exp x / (v.map Real.exp).sum)

/-- `nn.functional.log_softmax(v, dim=-1)` on one logits row. -/
noncomputable def logSoftmaxRow (v : List Real) : List Real :=
  v.map (fun x => x - Real.log ((v.map Real.exp).sum))

/-- `nn.KLDivLoss(reduction="batchmean")` (line 942): `input` holds
log-probabilities and `target` probabilities; the pointwise loss is
`target * (log target - input)`, summed over everything and divided by
the batch size (the number of rows of `input`). -/
noncomputable def kldLossBatchmean (input target : List (List Real)) : Real :=
  ((input.zip target).map
    (fun p => (List.zipWith (fun l t => t * (Real.log t - l)) p.1 p.2).sum)).sum /
    input.length

/-- Lines 1000-1005: `distil_loss = kld_loss_fct(log_softmax(new/T), softmax(orig/T)) * T²`. -/
noncomputable def distil_loss (new_logits orig_logits : List (List Real))
    (temperature : Real) : Real :=
  kldLossBatchmean
    (new_logits.map (fun r => logSoftmaxRow (r.map (fun x => x / temperature))))
    (orig_logits.map (fun r => softmaxRow (r.map (fun x => x / temperature)))) *
    temperature ^ 2

/-- Lines 990, 1001, 1006: the loss that reaches `backward` in the
distillation branch.  The task loss was already divided by
`args.gradient_accumulation_steps` at line 990; then
`loss = args.alpha * distil_loss + loss` with `args.alpha = 0.5` and
`args.temperature = 1` hard-set at lines 1000-1001. -/
noncomputable def continuationTotalLoss (new_logits orig_logits : List (List Real))
    (taskLoss accum : Real) : Real :=
  (1 / 2) * distil_loss new_logits orig_logits 1 + taskLoss / accum

/-- One KL row of a distribution against itself vanishes:
`log` of the softmax is exactly the log-softmax. -/
theorem kld_row_self_eq_zero (v : List Real) :
    (List.zipWith (fun l t => t * (Real.log t - l))
      (logSoftmaxRow v) (softmaxRow v)).sum = 0 := by
  unfold logSoftmaxRow softmaxRow
  rw [List.zipWith_map, List.zipWith_same]
  apply List.sum_eq_zero
  intro x hx
  obtain ⟨a, ha, rfl⟩ := List.mem_map.mp hx
  have hne : v.map Real.exp ≠ [] := by
    intro hmap
    rw [List.map_eq_nil_iff] at hmap
    exact List.ne_nil_of_mem ha hmap
  have hS : 0 < (v.map Real.exp).sum := by
    apply List.sum_pos
    · intro y hy
      obtain ⟨b, _, rfl⟩ := List.mem_map.mp hy
      exact Real.exp_pos b
    · exact hne
  have hlog : Real.log (Real.exp a / (v.map Real.exp).sum) =
      a - Real.log ((v.map Real.exp).sum) := by
    rw [Real.log_div (Real.exp_ne_zero a) (ne_of_gt hS), Real.log_exp]
  rw [hlog]
  ring

/-- When the frozen model's logits equal the active model's, the
distillation loss is exactly zero. -/
theorem distil_loss_self (new_logits : List (List Real)) :
    distil_loss new_logits new_logits 1 = 0 := by
  unfold distil_loss kldLossBatchmean
  rw [List.zip_map', List.map_map]
  have hz : ∀ x ∈ new_logits.map ((fun p : List Real × List Real =>
      (List.zipWith (fun l t => t * (Real.log t - l)) p.1 p.2).sum) ∘
      (fun r => (logSoftmaxRow (r.map (fun x => x / 1)),
                 softmaxRow (r.map (fun x => x / 1))))), x = 0 := by
    intro x hx
    obtain ⟨r, _, rfl⟩ := List.mem_map.mp hx
    exact kld_row_self_eq_zero _
  rw [List.sum_eq_zero hz]
  simp

/-- C7, counterexample.  The claim states the total loss equals
`alpha * distill_loss + task_loss`.  But line 990 divides the task loss
by the gradient-accumulation factor before line 1006 adds the (undivided)
distillation term: with accumulation factor 2, task loss 1 and identical
logits (`distil_loss = 0`), the loss reaching backward is `1/2`, while
`alpha * distill_loss + task_loss = 1`. -/
theorem continuation_loss_counterexample :
    continuationTotalLoss [[0, 0]] [[0, 0]] 1 2 = 1 / 2 ∧
    ¬ continuationTotalLoss [[0, 0]] [[0, 0]] 1 2 =
        (1 / 2) * distil_loss [[0, 0]] [[0, 0]] 1 + 1 := by
  have h0 : distil_loss [[0, 0]] [[0, 0]] 1 = 0 := distil_loss_self _
  constructor
  · unfold continuationTotalLoss
    rw [h0]
    norm_num
  · unfold continuationTotalLoss
    rw [h0]
    norm_num

/-- C7, amended.  In the distillation-augmented continuation mode the
loss reaching backward equals
`alpha * distill_loss + task_loss / accumulation_factor` with
`alpha = 0.5` and temperature fixed at 1; this is the claimed
`alpha * distill_loss + task_loss` exactly when the accumulation factor
is 1 (its default).  When the frozen reference model produces logits
identical to the active model's, `distil_loss = 0`, and with
accumulation factor 1 the total loss equals the task loss. -/
theorem continuation_loss_eq (new_logits orig_logits : List (List Real))
    (taskLoss accum : Real) :
    continuationTotalLoss new_logits orig_logits taskLoss accum =
      (1 / 2) * distil_loss new_logits orig_logits 1 + taskLoss / accum ∧
    (orig_logits = new_logits →
      distil_loss new_logits orig_logits 1 = 0 ∧
      (accum = 1 →
        continuationTotalLoss new_logits orig_logits taskLoss accum = taskLoss)) := by
  refine ⟨rfl, ?_⟩
  rintro rfl
  refine ⟨distil_loss_self _, fun ha => ?_⟩
  unfold continuationTotalLoss
  rw [distil_loss_self, ha]
  simp

/-- C7, witness: identical logits `[[1, 2]]`, task loss 3, accumulation
factor 1: the distillation term vanishes and the total equals the task
loss. -/
theorem continuation_loss_eq_witness :
    continuationTotalLoss [[1, 2]] [[1, 2]] 3 1 =
      (1 / 2) * distil_loss [[1, 2]] [[1, 2]] 1 + 3 / 1 ∧
    distil_loss [[1, 2]] [[1, 2]] 1 = 0 ∧
    continuationTotalLoss [[1, 2]] [[1, 2]] 3 1 = 3 := by
  have h := continuation_loss_eq [[1, 2]] [[1, 2]] 3 1
  exact ⟨h.1, (h.2 rfl).1, (h.2 rfl).2 rfl⟩
